import Mathlib

/-!
Verification development for the di2save repository.

The repository has two source files:
  * `tools/generate_commands.py` — a crawler that discovers the command tree of
    the external `di2save` binary by recursively parsing `--help` output, and
    serializes the discovered registry as sorted, pretty-printed JSON;
  * `api/main.py` — a thin FastAPI dispatcher that loads the registry, sandboxes
    caller-supplied file paths under `SAVE_DIR`, and executes registry commands.

This file shallow-embeds both.  Python strings are modelled as Lean `String`
(working over `String.data : List Char`); the external subprocess primitives
(`run_help_tokens`, `subprocess.run`) are parameters of the embedded functions;
machine-level concerns (actual process spawning, the file system) are modelled
as oracles.  The crawler's `while` loop is embedded as a fuel-indexed function
`crawlGo`; termination (the fuel always suffices) is proved, not assumed.
-/

/-! ## Python character classes and string helpers

`re`'s `\s` on ASCII text is `[ \t\n\r\f\v]`; `str.strip()` strips the same
characters (for ASCII input).  The regexes in `generate_commands.py` use the
ASCII classes `[A-Za-z0-9]`, `[A-Za-z0-9\-_]` and the word class `\w` (for the
`\b` boundary). -/

/-- Python `\s` / `str.strip` whitespace, restricted to ASCII.  (CPython's
`\s` and `str.strip` are Unicode-aware — e.g. they also treat `'\u00a0'` as
whitespace — so theorems that quantify over text restrict their domains to
printable-ASCII/tab characters, where this restriction coincides with
CPython.) -/
def pyIsSpace (c : Char) : Bool :=
  c = ' ' || c = '\t' || c = '\n' || c = '\r' || c = '\x0b' || c = '\x0c'

/-- ASCII letter or digit: the regex class `[A-Za-z0-9]`. -/
def isAlnumA (c : Char) : Bool :=
  ('A' ≤ c && c ≤ 'Z') || ('a' ≤ c && c ≤ 'z') || ('0' ≤ c && c ≤ '9')

/-- ASCII digit: `[0-9]`. -/
def isDigitA (c : Char) : Bool := '0' ≤ c && c ≤ '9'

/-- The regex class `[A-Za-z0-9\-_]` of `parse_subcommands`' identifier regex. -/
def isClassCh (c : Char) : Bool := isAlnumA c || c = '-' || c = '_'

/-- ASCII word character (`\w`), as used by the `\b` word boundary. -/
def isWordCh (c : Char) : Bool := isAlnumA c || c = '_'

/-- Python `str.strip()` on a list of characters. -/
def pyStrip (l : List Char) : List Char :=
  ((l.dropWhile pyIsSpace).reverse.dropWhile pyIsSpace).reverse

/-- A line is blank when `not line.strip()` holds: all characters whitespace. -/
def isBlankLine (l : List Char) : Bool := l.all pyIsSpace

/-- Python `str.splitlines`, modelled as splitting on `'\n'`.  (Python also
breaks at `\r`, `\v`, `\f`, `\x1c`-`\x1e`, `\x85`, `\u2028`, `\u2029`;
concrete claim inputs use `'\n'` separators only, and theorems quantifying
over text restrict their domains to `'\n'` plus printable-ASCII/tab
characters — `plainChar` below — where CPython's splitlines coincides with
splitting on `'\n'`.  A trailing `'\n'` gives one extra empty final line
compared to Python; an empty line is inert for `parse_subcommands`: it either
breaks collection, adding nothing, or fails the header match.) -/
def splitNL : List Char → List (List Char)
  | [] => [[]]
  | c :: rest =>
    let r := splitNL rest
    if c = '\n' then [] :: r
    else (c :: r.headD []) :: r.tail

/-- Python `str.split()` (no separator): split on whitespace runs, no empties. -/
def splitWs (l : List Char) : List String :=
  let step : Char → List (List Char) → List (List Char) := fun c acc =>
    if pyIsSpace c then [] :: acc
    else match acc with
      | [] => [[c]]
      | a :: as_ => (c :: a) :: as_
  ((l.foldr step []).filter (· ≠ [])).map String.mk

/-! ## Help-text parser (`parse_subcommands`, generate_commands.py lines 31-54) -/

/-- Match of `SUBCOMMANDS_HEADER_RE = re.compile(r"^\s*Subcommands:\s*$", re.IGNORECASE)`:
the line, with surrounding whitespace stripped, equals `Subcommands:` up to
ASCII case. -/
def headerMatch (l : List Char) : Bool :=
  (pyStrip l).map Char.toLower = "subcommands:".toList

/-- Drop trailing `'-'` characters (used to model the `\b` backtracking below). -/
def dropTrailingHyphens (l : List Char) : List Char :=
  (l.reverse.dropWhile (· = '-')).reverse

/-- Model of `re.match(r"^\s{2,}([A-Za-z0-9][A-Za-z0-9\-_]*)\b", line)`,
returning the captured group.

Derivation of the closed form from the regex semantics: `\s{2,}` must consume
the maximal leading whitespace run (the group starts with a non-whitespace
character), which must have length ≥ 2; the group then requires an
`[A-Za-z0-9]` character.  The greedy group consumes the maximal run of class
characters and backtracks until `\b` holds.  Every class character except `'-'`
is a word character, and the character following the class run (or end of
line) is a non-word character, so the boundary holds exactly after the last
word character of the run, i.e. the capture is the class run with its trailing
hyphens removed (nonempty, since the run starts with an alphanumeric).

CPython's `\b` is Unicode-aware: a non-ASCII word character (e.g. `'é'`)
directly after the class run defeats the boundary there, while this ASCII
closed form still captures.  The closed form therefore coincides with CPython
exactly when the character following the class run is ASCII; theorems that
quantify over lines restrict to that fragment (`GoodIdentLine`). -/
def captureIdent (l : List Char) : Option (List Char) :=
  if 2 ≤ (l.takeWhile pyIsSpace).length then
    match l.dropWhile pyIsSpace with
    | c :: cs => if isAlnumA c then some (dropTrailingHyphens ((c :: cs).takeWhile isClassCh))
                 else none
    | [] => none
  else none

/-- The line scan of `parse_subcommands`: walk the lines with the `in_block`
flag; a header line (re)enters the block; inside the block a blank line breaks
out of the whole loop and a matching line contributes its captured identifier. -/
def collectSubs : List (List Char) → Bool → List (List Char)
  | [], _ => []
  | line :: rest, inBlock =>
    if headerMatch line then collectSubs rest true
    else if inBlock then
      if isBlankLine line then []
      else match captureIdent line with
        | some s => s :: collectSubs rest true
        | none => collectSubs rest true
    else collectSubs rest false

/-- The de-duplication loop of `parse_subcommands` (seen-set, keep first). -/
def dedupSeen (seen : List (List Char)) : List (List Char) → List (List Char)
  | [] => []
  | s :: rest => if s ∈ seen then dedupSeen seen rest else s :: dedupSeen (s :: seen) rest

/-- `parse_subcommands(help_text)` from generate_commands.py. -/
def parse_subcommands (help_text : String) : List String :=
  (dedupSeen [] (collectSubs (splitNL help_text.data) false)).map String.mk

/-! ## Seed parsing and the crawler (`generate_commands.py` lines 56-127)

The external `run_help_tokens` primitive (a subprocess invocation of
`./di2save --help <path>`) is a parameter `f : List String → String` of the
embedded crawler, as are the `MAX_DEPTH` and `HELP_SEEDS` configuration
values read from the environment by the script. -/

/-- `parse_seed_line(line)`: `("", [])` for an empty line, `("helpflag", rest)`
when the first token is `--help`, `("command", parts)` otherwise. -/
def parse_seed_line (line : String) : String × List String :=
  match splitWs line.data with
  | [] => ("", [])
  | p :: _ => if p = "--help" then ("helpflag", (splitWs line.data).tail)
              else ("command", splitWs line.data)

/-- The initial work queue of `crawl_from_seeds`: the root help probe, then one
item per nonempty seed line with a nonempty kind.  (The script pre-strips the
whole `HELP_SEEDS` environment value; that only removes leading/trailing blank
lines, which are skipped here anyway.) -/
def initQueue (seedsRaw : String) : List (String × List String) :=
  ("helpflag", ([] : List String)) ::
    (splitNL seedsRaw.data).filterMap (fun lc =>
      let line := String.mk (pyStrip lc)
      if line = "" then none
      else
        let kt := parse_seed_line line
        if kt.1 = "" then none else some kt)

/-- A registry maps dotted keys to `argv` token lists.  Every value written by
the script is the single-field object `{"argv": path}` (lines 116 and 122), so
an entry is modelled by its `argv` list.  The list keeps Python-dict insertion
order. -/
abbrev Registry : Type := List (String × List String)

/-- Python dict assignment `registry[k] = v`: update in place if the key is
present (keeping its position), else append. -/
def regWrite (reg : Registry) (k : String) (v : List String) : Registry :=
  if (List.any reg (fun kv => kv.1 = k)) then
    List.map (fun kv => if kv.1 = k then (k, v) else kv) reg
  else reg ++ [(k, v)]

/-- Python dict lookup `reg.get(k)` (keys are unique in a dict; first match). -/
def regLookup (reg : Registry) (k : String) : Option (List String) :=
  (List.find? (fun kv => kv.1 = k) reg).map (·.2)

/-- `".".join(toks)`. -/
def dottedL : List (List Char) → List Char
  | [] => []
  | [t] => t
  | t :: ts => t ++ '.' :: dottedL ts

/-- The dotted key of a command path: its tokens joined by `"."`. -/
def dotted (toks : List String) : String := String.mk (dottedL (toks.map String.data))

/-- The `while q:` loop of `crawl_from_seeds`, with an explicit FIFO queue,
visited set and registry, indexed by fuel (one unit per loop iteration).
`none` means the fuel ran out before the queue emptied; the theorem
`c10_crawl_terminates` shows sufficient fuel always exists.  Branches follow
lines 92-125 of the script: a visited help path is skipped; an unvisited one
is marked visited, dropped if `len(path) > MAX_DEPTH`, and otherwise probed
via `f`, its parsed children enqueued, and (when nonempty) registered; a
`command` item is registered unconditionally; any other kind is skipped. -/
def crawlGo (f : List String → String) (maxDepth : Nat) :
    Nat → List (String × List String) → List (List String) → Registry → Option Registry
  | _, [], _, reg => some reg
  | fuel, (kind, toks) :: rest, visited, reg =>
    match fuel with
    | 0 => none
    | fuel + 1 =>
      if kind = "helpflag" then
        if toks ∈ visited then
          crawlGo f maxDepth fuel rest visited reg
        else if maxDepth < toks.length then
          crawlGo f maxDepth fuel rest (toks :: visited) reg
        else
          crawlGo f maxDepth fuel
            (rest ++ (parse_subcommands (f toks)).map (fun s => ("helpflag", toks ++ [s])))
            (toks :: visited)
            (if toks = [] then reg else regWrite reg (dotted toks) toks)
      else if kind = "command" then
        crawlGo f maxDepth fuel rest visited (regWrite reg (dotted toks) toks)
      else
        crawlGo f maxDepth fuel rest visited reg

/-- `crawl_from_seeds()`: run the loop from the seeded queue with empty visited
set and registry. -/
def crawl_from_seeds (f : List String → String) (maxDepth : Nat) (seedsRaw : String)
    (fuel : Nat) : Option Registry :=
  crawlGo f maxDepth fuel (initQueue seedsRaw) [] []

/-! ## Registry serializer (`main()` of generate_commands.py, lines 129-133)

`json.dump(reg, f, indent=2, sort_keys=True)` writes the registry as a
pretty-printed JSON object with keys in sorted order (Python sorts `str` keys
by code points) and each value rendered as `{"argv": [...]}`.  The escaping
below is `json`'s default `ensure_ascii=True`: printable ASCII other than `"`
and `\` is kept, `\n`/`\t`/`\r`/backspace/formfeed use short escapes, and
every other code point becomes lowercase `\uXXXX` (a surrogate pair beyond
the BMP). -/

/-- Lowercase hex digit. -/
def hexDigit (n : Nat) : Char :=
  if n < 10 then Char.ofNat ('0'.toNat + n) else Char.ofNat ('a'.toNat + (n - 10))

/-- A `\uXXXX` escape for a 16-bit value. -/
def u16Escape (n : Nat) : List Char :=
  ['\\', 'u', hexDigit (n / 4096 % 16), hexDigit (n / 256 % 16),
   hexDigit (n / 16 % 16), hexDigit (n % 16)]

/-- Escape one character as Python `json` with `ensure_ascii=True` does. -/
def escapeChar (c : Char) : List Char :=
  if c = '"' then ['\\', '"']
  else if c = '\\' then ['\\', '\\']
  else if c = '\n' then ['\\', 'n']
  else if c = '\t' then ['\\', 't']
  else if c = '\r' then ['\\', 'r']
  else if c = '\x08' then ['\\', 'b']
  else if c = '\x0c' then ['\\', 'f']
  else if 0x20 ≤ c.toNat ∧ c.toNat ≤ 0x7e then [c]
  else if c.toNat < 0x10000 then u16Escape c.toNat
  else u16Escape (0xd800 + (c.toNat - 0x10000) / 0x400) ++
       u16Escape (0xdc00 + (c.toNat - 0x10000) % 0x400)

/-- A JSON string literal for `s`. -/
def quoteStr (s : String) : String :=
  "\"" ++ String.mk (List.flatten (s.data.map escapeChar)) ++ "\""

/-- Lexicographic comparison of strings by code points (Python `str` order,
as used by `sort_keys=True`). -/
def charListLe : List Char → List Char → Bool
  | [], _ => true
  | _ :: _, [] => false
  | a :: as_, b :: bs => if a < b then true else if b < a then false else charListLe as_ bs

/-- String order used for `sort_keys=True`. -/
def strLeB (a b : String) : Bool := charListLe a.data b.data

/-- Insert an entry into a key-sorted entry list. -/
def insortKey (kv : String × List String) : List (String × List String) → List (String × List String)
  | [] => [kv]
  | x :: xs => if strLeB kv.1 x.1 then kv :: x :: xs else x :: insortKey kv xs

/-- Sort the registry entries by key (registry keys are unique, so any
key-respecting sort agrees with Python's). -/
def sortEntries (reg : Registry) : List (String × List String) :=
  reg.foldr insortKey []

/-- Render one registry entry (two-space indentation, as `indent=2` does). -/
def renderEntry (kv : String × List String) : String :=
  "  " ++ quoteStr kv.1 ++ ": \x7b\n    \"argv\": " ++
    (if kv.2 = [] then "[]"
     else "[\n" ++ String.intercalate ",\n" (kv.2.map (fun t => "      " ++ quoteStr t)) ++
          "\n    ]") ++ "\n  \x7d"

/-- `json.dump(reg, f, indent=2, sort_keys=True)`: the exact byte content
written to `OUT_FILE`. -/
def serialize_registry (reg : Registry) : String :=
  let entries := sortEntries reg
  if entries = [] then "\x7b\x7d"
  else "\x7b\n" ++ String.intercalate ",\n" (entries.map renderEntry) ++ "\n\x7d"

/-! ## JSON values and the dispatcher (`api/main.py`)

`COMMANDS` is whatever `json.load` produced; its values are arbitrary JSON.
JSON values are modelled by the inductive `Json` (numbers as integers suffice
for the claims).  The HTTP layer is modelled by `Except (Nat × String)`:
`.error (status, detail)` is a raised `HTTPException`. -/

inductive Json where
  | null
  | bool (b : Bool)
  | num (n : Int)
  | str (s : String)
  | arr (elts : List Json)
  | obj (entries : List (String × Json))

/-- Python truthiness of a JSON-decoded value (`not spec`). -/
def jsonTruthy (j : Json) : Bool :=
  match j with
  | .null => false
  | .bool b => b
  | .num n => n ≠ 0
  | .str s => s ≠ ""
  | .arr l => ¬ l.isEmpty
  | .obj l => ¬ l.isEmpty

/-- Dict lookup on a decoded JSON object (keys unique; first match). -/
def jsonGet (entries : List (String × Json)) (k : String) : Option Json :=
  (List.find? (fun kv => kv.1 = k) entries).map (·.2)

/-- How `load_commands()` can observe the registry file: missing, present but
not valid JSON, or a decoded JSON value. -/
inductive LoadInput where
  | missing
  | invalid
  | value (j : Json)

/-- `load_commands()` (main.py lines 18-26).  A missing file becomes a
`RuntimeError`; undecodable JSON raises `json.JSONDecodeError` (a `ValueError`,
not caught by the `except FileNotFoundError` clause, so it propagates); a
decoded value that is not a dict raises `ValueError`.  Any `.error` aborts
startup, since `COMMANDS = load_commands()` runs at import time. -/
def load_commands : LoadInput → Except String Json
  | .missing => .error "RuntimeError: Commands file not found"
  | .invalid => .error "json.JSONDecodeError"
  | .value j =>
    match j with
    | Json.obj entries => .ok (Json.obj entries)
    | _ => .error "ValueError: commands.json must be a JSON object"

/-! ### Path sandboxing (`safe_join_under`, main.py lines 30-38)

`os.path` is POSIX (`os.sep = "/"`).  `os.path.abspath(p)` is
`normpath(join(cwd, p))`; every path it is applied to here is already
absolute provided the configured `SAVE_DIR` is absolute (as its default
`/data` is — theorems state this hypothesis explicitly), so the working
directory never enters. -/

/-- `str.split(sep)` for a one-character separator, on character lists
(keeps empty segments, like Python's `split` with an explicit separator). -/
def charSplit (sep : Char) : List Char → List (List Char)
  | [] => [[]]
  | c :: rest =>
    let r := charSplit sep rest
    if c = sep then [] :: r
    else (c :: r.headD []) :: r.tail

/-- `str.startswith` on character lists. -/
def isPrefixL : List Char → List Char → Bool
  | [], _ => true
  | _ :: _, [] => false
  | a :: as_, b :: bs => a = b && isPrefixL as_ bs

/-- `posixpath.normpath` on an absolute path: split on `/`, drop empty and `.`
components, let `..` pop the last component (or vanish at the root), and keep
the double-slash special case (a path starting with exactly two slashes keeps
them). -/
def pyNormAbs (p : String) : String :=
  let comps := (charSplit '/' p.data).map String.mk
  let stack := comps.foldl
    (fun st c => if c = "" ∨ c = "." then st else if c = ".." then st.dropLast else st ++ [c]) []
  let pfx : List Char :=
    if isPrefixL "//".data p.data ∧ ¬ isPrefixL "///".data p.data then "//".data else "/".data
  let body := List.intercalate "/".data (stack.map String.data)
  String.mk (if body = [] then pfx else pfx ++ body)

/-- `posixpath.join(base, rel)` for two arguments: an absolute `rel` replaces
`base`; otherwise they are joined with a `/` unless `base` already ends in
one. -/
def pyJoin (base rel : String) : String :=
  if isPrefixL ['/'] rel.data then rel
  else if base = "" ∨ base.data.getLast? = some '/' then String.mk (base.data ++ rel.data)
  else String.mk (base.data ++ '/' :: rel.data)

/-- `safe_join_under(base_dir, relative_path)` (main.py lines 30-38), for an
absolute `base_dir`: resolve, accept the base itself, and reject any candidate
that does not extend `base_abs + "/"` (`candidate.startswith(base_abs + os.sep)`)
with `HTTPException(400, ...)`. -/
def safe_join_under (base_dir relative_path : String) : Except (Nat × String) String :=
  let base_abs := pyNormAbs base_dir
  let candidate := pyNormAbs (pyJoin base_abs relative_path)
  if candidate = base_abs then .ok candidate
  else if ¬ (isPrefixL (base_abs.data ++ ['/']) candidate.data) then
    .error (400, "Invalid file path (must be under SAVE_DIR)")
  else .ok candidate

/-- `clamp_output(s)` (main.py lines 40-45) with the `MAX_OUTPUT_CHARS`
configuration explicit. -/
def clamp_output (maxOut : Nat) (s : String) : String :=
  if s.length ≤ maxOut then s
  else s.take maxOut ++ "\n\n[output truncated to " ++ toString maxOut ++ " chars]\n"

/-- The response body of `POST /run/{command_path}`. -/
structure RunResponse where
  cmd : List String
  exit_code : Int
  stdout : String
  stderr : String
deriving DecidableEq

/-- Extract `spec["argv"]` as a token list; `none` when some element is not a
string (in which case `subprocess.run` would raise `TypeError` when spawning). -/
def argvStrings : List Json → Option (List String)
  | [] => some []
  | Json.str s :: rest => (argvStrings rest).map (s :: ·)
  | _ => none

/-- The tail of `run_command` after the file argument is settled: append
`extra`, spawn the process via the `runProc` oracle (`none` models
`TimeoutExpired`, mapped to a 504), and clamp the captured output. -/
def runExec (binName : String) (maxOut : Nat)
    (runProc : List String → Option (Int × String × String))
    (argvJ : List Json) (filePath : Option String) (extra : List String) :
    Except (Nat × String) RunResponse :=
  match argvStrings argvJ with
  | none => .error (500, "TypeError")
  | some argv =>
    let cmd := binName :: argv ++ (match filePath with
      | some fp => ["--file", fp]
      | none => []) ++ extra
    match runProc cmd with
    | none => .error (504, "Command timed out")
    | some (rc, out, err) => .ok ⟨cmd, rc, clamp_output maxOut out, clamp_output maxOut err⟩

/-- `run_command` (main.py lines 84-118).  `commands` is the loaded registry
object, `fileExists` the `os.path.exists` oracle and `runProc` the
`subprocess.run` oracle.  The guard
`not spec or "argv" not in spec or not isinstance(spec["argv"], list)` gives a
404 for a missing, falsy, or list-less entry; for a truthy non-dict entry
Python's `"argv" not in spec` either raises `TypeError` (numbers, `True`) or
does a substring/membership test (strings, lists) whose success leads to the
`TypeError` of indexing `spec["argv"]` — both surfacing as a 500.  A nonempty
`file` field is resolved through `safe_join_under` *before* the existence
check, which in turn precedes process execution. -/
def run_command (commands : List (String × Json)) (binName save_dir : String) (maxOut : Nat)
    (fileExists : String → Bool) (runProc : List String → Option (Int × String × String))
    (command_path : String) (file : Option String) (extra : List String) :
    Except (Nat × String) RunResponse :=
  match jsonGet commands command_path with
  | none => .error (404, "Unknown command: " ++ command_path)
  | some spec =>
    if ¬ jsonTruthy spec then .error (404, "Unknown command: " ++ command_path)
    else
      match spec with
      | Json.obj entries =>
        match jsonGet entries "argv" with
        | some (Json.arr argvJ) =>
          (match file with
           | some fstr =>
             if fstr ≠ "" then
               match safe_join_under save_dir fstr with
               | .error e => .error e
               | .ok file_path =>
                 if ¬ fileExists file_path then .error (404, "Save file not found")
                 else runExec binName maxOut runProc argvJ (some file_path) extra
             else runExec binName maxOut runProc argvJ none extra
           | none => runExec binName maxOut runProc argvJ none extra)
        | some _ => .error (404, "Unknown command: " ++ command_path)
        | none => .error (404, "Unknown command: " ++ command_path)
      | Json.str s => if "argv".data <:+: s.data then .error (500, "TypeError")
                      else .error (404, "Unknown command: " ++ command_path)
      | Json.arr l => if l.any (fun j => match j with | Json.str t => t = "argv" | _ => false)
                      then .error (500, "TypeError")
                      else .error (404, "Unknown command: " ++ command_path)
      | _ => .error (500, "TypeError")

/-! ## Concrete instances and measures used by the theorems -/

/-- The deterministic help-tree stub of the end-to-end scenario: root lists
`alpha` and `beta` (with trailing descriptions), `alpha` has an empty
`Subcommands:` block, `beta` lists `gamma`, and `beta gamma` has an empty
block. -/
def crawlStub : List String → String := fun p =>
  if p = [] then "Subcommands:\n  alpha  does a thing\n  beta   does another\n"
  else if p = ["alpha"] then "Subcommands:\n"
  else if p = ["beta"] then "Subcommands:\n  gamma\n"
  else if p = ["beta", "gamma"] then "Subcommands:\n"
  else ""

/-- The registry the end-to-end scenario expects. -/
def regC1 : Registry := [("alpha", ["alpha"]), ("beta", ["beta"]), ("beta.gamma", ["beta", "gamma"])]

/-- Help stub used to witness the depth-cap theorem: every path up to length 1
lists one child `x`. -/
def probeShallow : List String → String := fun p =>
  if p.length ≤ 1 then "Subcommands:\n  x\n" else ""

/-- A second stub that differs from `probeShallow` only at paths of length
`≥ 2`, i.e. beyond the depth cap `MAX_DEPTH = 1`. -/
def probeDeep : List String → String := fun p =>
  if p.length ≤ 1 then "Subcommands:\n  x\n" else "Subcommands:\n  never-probed\n"

/-- Weight of the help subtree rooted at path `p`: `0` past the depth cap,
else one plus the weight of each child subtree plus one queue slot per child.
Silently decreasing in remaining depth, it bounds the loop iterations the
crawler can still spend below `p`. -/
def treeSize (f : List String → String) (maxDepth : Nat) (p : List String) : Nat :=
  if maxDepth < p.length then 0
  else 1 + (((parse_subcommands (f p)).attach.map
        (fun c => 1 + treeSize f maxDepth (p ++ [c.1]))).sum)
termination_by maxDepth + 1 - p.length
decreasing_by simp only [List.length_append, List.length_cons, List.length_nil]; omega

/-- Weight of one queue item: an unvisited help probe still costs its subtree;
everything else costs the single iteration that pops it. -/
def itemWeight (f : List String → String) (maxDepth : Nat) (visited : List (List String))
    (it : String × List String) : Nat :=
  if it.1 = "helpflag" ∧ it.2 ∉ visited then 1 + treeSize f maxDepth it.2 else 1

/-- Total weight of the queue: an upper bound on the remaining loop iterations. -/
def queueWeight (f : List String → String) (maxDepth : Nat) (visited : List (List String))
    (q : List (String × List String)) : Nat :=
  (q.map (itemWeight f maxDepth visited)).sum

/-- Characters on which this file's ASCII parser model provably coincides
with CPython: the horizontal tab and the printable ASCII range.  Within this
set `\s` matches exactly space and tab, `str.splitlines` never breaks, `\w`
is `[A-Za-z0-9_]`, and `re.IGNORECASE`/`str.lower` are plain ASCII case
folding. -/
def plainChar (c : Char) : Prop := c = '\t' ∨ (32 ≤ c.toNat ∧ c.toNat ≤ 126)

instance (c : Char) : Decidable (plainChar c) := by
  unfold plainChar; infer_instance

/-- Shape of one well-formed identifier line of a `Subcommands:` block, split
as leading whitespace `ws`, the identifier `ident`, and trailing text `rest`:
at least two spaces or tabs, then a maximal identifier over `[A-Za-z0-9\-_]`
starting alphanumeric and not ending in `-`, then printable-ASCII text that
does not extend the identifier; the whole line must not itself match the
(case-insensitive) `Subcommands:` header.  The conditions confine the line to
the fragment where the ASCII parser model coincides with CPython (no line
breaks other than the joining `'\n'`, no Unicode whitespace, no Unicode word
character adjacent to the identifier). -/
def GoodIdentLine (ws ident rest : List Char) : Prop :=
  (∀ c ∈ ws, c = ' ' ∨ c = '\t') ∧ 2 ≤ ws.length ∧
  ident ≠ [] ∧ (∀ c, ident.head? = some c → isAlnumA c = true) ∧
  (∀ c ∈ ident, isClassCh c = true) ∧ ident.getLast? ≠ some '-' ∧
  (∀ c, rest.head? = some c → isClassCh c = false) ∧ (∀ c ∈ rest, plainChar c) ∧
  headerMatch (ws ++ ident ++ rest) = false

instance (ws ident rest : List Char) : Decidable (GoodIdentLine ws ident rest) := by
  unfold GoodIdentLine; infer_instance

/-- Token lists whose dotted keys cannot collide: every token nonempty and
free of `'.'`.  Subcommand names discovered by the parser always satisfy this
(their characters come from `[A-Za-z0-9\-_]`); seed tokens need not. -/
def TokensOk (toks : List String) : Prop := ∀ t ∈ toks, t ≠ "" ∧ '.' ∉ t.data

instance (toks : List String) : Decidable (TokensOk toks) := by
  unfold TokensOk; infer_instance

/-! ## Basic crawler lemmas -/

lemma crawlGo_nil (f : List String → String) (d fuel : Nat) (vis : List (List String))
    (reg : Registry) : crawlGo f d fuel [] vis reg = some reg := by
  cases fuel <;> rfl

lemma crawlGo_zero_cons (f : List String → String) (d : Nat) (k : String) (t : List String)
    (rest : List (String × List String)) (vis : List (List String)) (reg : Registry) :
    crawlGo f d 0 ((k, t) :: rest) vis reg = none := rfl

/-- More fuel never changes a completed crawl. -/
lemma crawlGo_mono (f : List String → String) (d : Nat) :
    ∀ n m, n ≤ m → ∀ q vis reg r,
      crawlGo f d n q vis reg = some r → crawlGo f d m q vis reg = some r := by
  intro n
  induction n with
  | zero =>
    intro m _ q vis reg r h
    cases q with
    | nil => rw [crawlGo_nil] at h; rw [crawlGo_nil]; exact h
    | cons it rest => obtain ⟨k, t⟩ := it; rw [crawlGo_zero_cons] at h; exact absurd h (by simp)
  | succ n ih =>
    intro m hm q vis reg r h
    cases q with
    | nil => rw [crawlGo_nil] at h; rw [crawlGo_nil]; exact h
    | cons it rest =>
      obtain ⟨m, rfl⟩ : ∃ m', m = m' + 1 := ⟨m - 1, by omega⟩
      obtain ⟨k, t⟩ := it
      simp only [crawlGo] at h ⊢
      split_ifs at h ⊢ <;> exact ih m (by omega) _ _ _ _ h

/-- C1: with the end-to-end help-tree stub and no extra seeds, the crawler
produces exactly the registry `{"alpha": {"argv": ["alpha"]}, "beta":
{"argv": ["beta"]}, "beta.gamma": {"argv": ["beta","gamma"]}}` — fuel 10
completes the crawl, and any completed crawl returns that registry. -/
theorem c1_end_to_end_registry :
    crawl_from_seeds crawlStub 10 "" 10 = some regC1 ∧
    ∀ n r, crawl_from_seeds crawlStub 10 "" n = some r → r = regC1 := by
  have base : crawlGo crawlStub 10 10 (initQueue "") [] [] = some regC1 := by decide
  refine ⟨base, ?_⟩
  intro n r h
  replace h : crawlGo crawlStub 10 n (initQueue "") [] [] = some r := h
  rcases le_total n 10 with hle | hle
  · have h2 := crawlGo_mono crawlStub 10 n 10 hle _ _ _ _ h
    rw [h2] at base
    exact Option.some.inj base
  · have h2 := crawlGo_mono crawlStub 10 10 n hle _ _ _ _ base
    rw [h2] at h
    exact (Option.some.inj h).symm

/-- Witness for `c1_end_to_end_registry`: its second part applied at fuel 11. -/
theorem c1_end_to_end_registry_witness : regC1 = regC1 :=
  c1_end_to_end_registry.2 11 regC1 (by decide)

/-! ## Registry invariants of the crawl loop -/

/-- An entry of `regWrite reg k v` is an old entry or the written pair. -/
lemma mem_regWrite {reg : Registry} {k : String} {v : List String}
    {kv : String × List String} (h : kv ∈ regWrite reg k v) : kv ∈ reg ∨ kv = (k, v) := by
  unfold regWrite at h
  split_ifs at h
  · obtain ⟨x, hx, hxe⟩ := List.mem_map.mp h
    by_cases hxk : x.1 = k
    · right; rw [if_pos hxk] at hxe; exact hxe.symm
    · left; rw [if_neg hxk] at hxe; exact hxe ▸ hx
  · rcases List.mem_append.mp h with h1 | h1
    · exact Or.inl h1
    · exact Or.inr (List.mem_singleton.mp h1)

/-- Invariant preservation for the crawl loop: if `Q` holds for every queued
item, is preserved from a help probe to its discovered children, and forces
the entry property `P` of every write (help-probe writes are nonempty and
within the depth cap; command writes are unconditional), then every entry of a
completed crawl's registry satisfies `P`. -/
lemma crawlGo_inv (f : List String → String) (maxD : Nat)
    (P : String × List String → Prop) (Q : String × List String → Prop)
    (hQchild : ∀ toks s, Q ("helpflag", toks) → s ∈ parse_subcommands (f toks) →
      Q ("helpflag", toks ++ [s]))
    (hPhelp : ∀ toks, Q ("helpflag", toks) → toks ≠ [] → toks.length ≤ maxD →
      P (dotted toks, toks))
    (hPcmd : ∀ toks, Q ("command", toks) → P (dotted toks, toks)) :
    ∀ fuel q vis reg r, crawlGo f maxD fuel q vis reg = some r →
      (∀ it ∈ q, Q it) → (∀ kv ∈ reg, P kv) → ∀ kv ∈ r, P kv := by
  intro fuel
  induction fuel with
  | zero =>
    intro q vis reg r h hq hreg
    cases q with
    | nil => rw [crawlGo_nil] at h; exact (Option.some.inj h) ▸ hreg
    | cons it rest =>
      obtain ⟨k, t⟩ := it
      rw [crawlGo_zero_cons] at h
      exact absurd h (by simp)
  | succ n ih =>
    intro q vis reg r h hq hreg
    cases q with
    | nil => rw [crawlGo_nil] at h; exact (Option.some.inj h) ▸ hreg
    | cons it rest =>
      obtain ⟨k, t⟩ := it
      have hqrest : ∀ it ∈ rest, Q it := fun it hit => hq it (List.mem_cons_of_mem _ hit)
      have hqhead : Q (k, t) := hq (k, t) (List.mem_cons_self _ _)
      simp only [crawlGo] at h
      by_cases hk : k = "helpflag"
      · subst hk
        rw [if_pos rfl] at h
        by_cases hv : t ∈ vis
        · rw [if_pos hv] at h
          exact ih _ _ _ _ h hqrest hreg
        · rw [if_neg hv] at h
          by_cases hd : maxD < t.length
          · rw [if_pos hd] at h
            exact ih _ _ _ _ h hqrest hreg
          · rw [if_neg hd] at h
            refine ih _ _ _ _ h ?_ ?_
            · intro it hit
              rcases List.mem_append.mp hit with h1 | h1
              · exact hqrest it h1
              · obtain ⟨s, hs, hse⟩ := List.mem_map.mp h1
                exact hse ▸ hQchild t s hqhead hs
            · intro kv hkv
              by_cases ht : t = []
              · rw [if_pos ht] at hkv; exact hreg kv hkv
              · rw [if_neg ht] at hkv
                rcases mem_regWrite hkv with h1 | h1
                · exact hreg kv h1
                · exact h1 ▸ hPhelp t hqhead ht (Nat.not_lt.mp hd)
      · rw [if_neg hk] at h
        by_cases hc : k = "command"
        · subst hc
          rw [if_pos rfl] at h
          refine ih _ _ _ _ h hqrest ?_
          intro kv hkv
          rcases mem_regWrite hkv with h1 | h1
          · exact hreg kv h1
          · exact h1 ▸ hPcmd t hqhead
        · rw [if_neg hc] at h
          exact ih _ _ _ _ h hqrest hreg

/-- Every token produced by `str.split()` is nonempty. -/
lemma splitWs_ne_nil {l : List Char} {t : String} (h : t ∈ splitWs l) : t ≠ "" := by
  unfold splitWs at h
  obtain ⟨w, hw, hwe⟩ := List.mem_map.mp h
  have hne : w ≠ [] := by simpa using (List.mem_filter.mp hw).2
  subst hwe
  intro hcontra
  exact hne (congrArg String.data hcontra)

/-- Case analysis of `parse_seed_line`. -/
lemma parse_seed_line_cases (line : String) :
    parse_seed_line line = ("", []) ∨
    (∃ toks, parse_seed_line line = ("helpflag", toks) ∧ ∀ t ∈ toks, t ∈ splitWs line.data) ∨
    (parse_seed_line line = ("command", splitWs line.data) ∧ splitWs line.data ≠ []) := by
  unfold parse_seed_line
  split
  · exact Or.inl rfl
  · rename_i p rest heq
    by_cases hp : p = "--help"
    · refine Or.inr (Or.inl ⟨(splitWs line.data).tail, by rw [if_pos hp], ?_⟩)
      intro t ht
      exact List.mem_of_mem_tail ht
    · refine Or.inr (Or.inr ⟨by rw [if_neg hp], ?_⟩)
      rw [heq]
      simp

/-- Every item of the initial queue is the root help probe or comes from
`parse_seed_line` on some (stripped, nonempty) seed line. -/
lemma initQueue_mem {seedsRaw : String} {it : String × List String}
    (h : it ∈ initQueue seedsRaw) :
    it = ("helpflag", ([] : List String)) ∨ ∃ line : String, it = parse_seed_line line := by
  unfold initQueue at h
  rcases List.mem_cons.mp h with h1 | h1
  · exact Or.inl h1
  · obtain ⟨lc, _, hlc⟩ := List.mem_filterMap.mp h1
    simp only at hlc
    refine Or.inr ⟨String.mk (pyStrip lc), ?_⟩
    by_cases h2 : String.mk (pyStrip lc) = ""
    · rw [if_pos h2] at hlc; cases hlc
    · rw [if_neg h2] at hlc
      by_cases h3 : (parse_seed_line (String.mk (pyStrip lc))).1 = ""
      · rw [if_pos h3] at hlc; cases hlc
      · rw [if_neg h3] at hlc; exact (Option.some.inj hlc).symm

/-- C5: every entry of a completed crawl has its dotted key equal to its argv
tokens joined by `"."` (the argv reconstructs the command path), and the argv
is never empty — the root path is never registered. -/
theorem c5_registry_argv_invariant (f : List String → String) (maxD : Nat) (seedsRaw : String)
    (fuel : Nat) (r : Registry) (h : crawl_from_seeds f maxD seedsRaw fuel = some r) :
    ∀ kv ∈ r, kv.1 = dotted kv.2 ∧ kv.2 ≠ [] := by
  refine crawlGo_inv f maxD (fun kv => kv.1 = dotted kv.2 ∧ kv.2 ≠ [])
    (fun it => it.1 = "command" → it.2 ≠ []) ?_ ?_ ?_ fuel _ _ _ _ h ?_ (by simp)
  · intro toks s _ _ hc; simp at hc
  · intro toks _ ht _; exact ⟨rfl, ht⟩
  · intro toks hq; exact ⟨rfl, hq rfl⟩
  · intro it hit hc
    rcases initQueue_mem hit with h1 | ⟨line, h1⟩
    · rw [h1] at hc; simp at hc
    · rcases parse_seed_line_cases line with h2 | ⟨toks, h2, _⟩ | ⟨h2, h3⟩
      · rw [h1, h2] at hc; simp at hc
      · rw [h1, h2] at hc; simp at hc
      · rw [h1, h2]; exact h3

/-- Witness for `c5_registry_argv_invariant` at the end-to-end scenario. -/
theorem c5_registry_argv_invariant_witness :
    ("alpha" : String) = dotted ["alpha"] ∧ (["alpha"] : List String) ≠ [] :=
  c5_registry_argv_invariant crawlStub 10 "" 10 regC1 (by decide) ("alpha", ["alpha"]) (by decide)

/-- The crawl result only depends on the help primitive's values at paths
within the depth cap: probes never happen beyond it. -/
lemma crawlGo_congr (f g : List String → String) (maxD : Nat)
    (hagree : ∀ p : List String, p.length ≤ maxD → f p = g p) :
    ∀ fuel q vis reg, crawlGo f maxD fuel q vis reg = crawlGo g maxD fuel q vis reg := by
  intro fuel
  induction fuel with
  | zero =>
    intro q vis reg
    cases q with
    | nil => rfl
    | cons it rest => obtain ⟨k, t⟩ := it; rfl
  | succ n ih =>
    intro q vis reg
    cases q with
    | nil => rfl
    | cons it rest =>
      obtain ⟨k, t⟩ := it
      simp only [crawlGo]
      by_cases hk : k = "helpflag"
      · rw [if_pos hk, if_pos hk]
        by_cases hv : t ∈ vis
        · rw [if_pos hv, if_pos hv]; exact ih _ _ _
        · rw [if_neg hv, if_neg hv]
          by_cases hd : maxD < t.length
          · rw [if_pos hd, if_pos hd]; exact ih _ _ _
          · rw [if_neg hd, if_neg hd, hagree t (Nat.not_lt.mp hd)]; exact ih _ _ _
      · rw [if_neg hk, if_neg hk]
        by_cases hc : k = "command"
        · rw [if_pos hc, if_pos hc]; exact ih _ _ _
        · rw [if_neg hc, if_neg hc]; exact ih _ _ _

/-- C4: paths at length `MAX_DEPTH + 1` (indeed, any length beyond the cap)
are dropped without expansion — the crawl never invokes the run-help
primitive there (the result is unchanged if that primitive is modified
arbitrarily beyond the cap), and the registry holds no entry for such a path
except through a literal-command seed. -/
theorem c4_depth_cap_boundary (f g : List String → String) (maxD : Nat) (seedsRaw : String)
    (fuel : Nat) (hagree : ∀ p : List String, p.length ≤ maxD → f p = g p) :
    crawl_from_seeds f maxD seedsRaw fuel = crawl_from_seeds g maxD seedsRaw fuel ∧
    ∀ r, crawl_from_seeds f maxD seedsRaw fuel = some r →
      ∀ kv ∈ r, kv.2.length ≤ maxD ∨ ("command", kv.2) ∈ initQueue seedsRaw := by
  constructor
  · exact crawlGo_congr f g maxD hagree fuel _ _ _
  · intro r h
    refine crawlGo_inv f maxD
      (fun kv => kv.2.length ≤ maxD ∨ ("command", kv.2) ∈ initQueue seedsRaw)
      (fun it => it.1 = "command" → it ∈ initQueue seedsRaw) ?_ ?_ ?_ fuel _ _ _ _ h ?_ (by simp)
    · intro toks s _ _ hc; simp at hc
    · intro toks _ _ hlen; exact Or.inl hlen
    · intro toks hq; exact Or.inr (hq rfl)
    · intro it hit _; exact hit

/-- Witness for `c4_depth_cap_boundary`: two help stubs that differ only at
paths of length 2, beyond the cap `MAX_DEPTH = 1`, give identical crawls. -/
theorem c4_depth_cap_boundary_witness :
    crawl_from_seeds probeShallow 1 "" 5 = crawl_from_seeds probeDeep 1 "" 5 :=
  (c4_depth_cap_boundary probeShallow probeDeep 1 "" 5 (fun p hp => by
    unfold probeShallow probeDeep
    rw [if_pos hp, if_pos hp])).1

/-! ## Dotted keys are injective on collision-free token lists -/

lemma dottedL_cons (t : List Char) (ts : List (List Char)) :
    dottedL (t :: ts) = if ts = [] then t else t ++ '.' :: dottedL ts := by
  cases ts with
  | nil => simp [dottedL]
  | cons u us => simp [dottedL]

lemma dot_split_eq {a b u v : List Char} (ha : '.' ∉ a) (hb : '.' ∉ b)
    (h : a ++ '.' :: u = b ++ '.' :: v) : a = b ∧ u = v := by
  induction a generalizing b with
  | nil =>
    cases b with
    | nil => simpa using h
    | cons d bs =>
      simp only [List.nil_append, List.cons_append, List.cons.injEq] at h
      exact absurd (h.1 ▸ List.mem_cons_self d bs) hb
  | cons c as_ ih =>
    cases b with
    | nil =>
      simp only [List.cons_append, List.nil_append, List.cons.injEq] at h
      exact absurd (h.1 ▸ List.mem_cons_self c as_) ha
    | cons d bs =>
      simp only [List.cons_append, List.cons.injEq] at h
      obtain ⟨rfl, h2⟩ := h
      have := ih (fun hm => ha (List.mem_cons_of_mem _ hm))
        (fun hm => hb (List.mem_cons_of_mem _ hm)) h2
      exact ⟨by rw [this.1], this.2⟩

lemma dottedL_inj : ∀ a b : List (List Char),
    (∀ t ∈ a, t ≠ [] ∧ '.' ∉ t) → (∀ t ∈ b, t ≠ [] ∧ '.' ∉ t) →
    dottedL a = dottedL b → a = b := by
  intro a
  induction a with
  | nil =>
    intro b _ hb h
    cases b with
    | nil => rfl
    | cons t bs =>
      rw [dottedL_cons] at h
      exfalso
      by_cases hbs : bs = []
      · rw [if_pos hbs] at h
        exact (hb t (List.mem_cons_self _ _)).1 h.symm
      · rw [if_neg hbs] at h
        exact absurd h.symm (by simp [dottedL])
  | cons s as_ ih =>
    intro b ha hb h
    cases b with
    | nil =>
      rw [dottedL_cons] at h
      exfalso
      by_cases has : as_ = []
      · rw [if_pos has] at h
        exact (ha s (List.mem_cons_self _ _)).1 h
      · rw [if_neg has] at h
        exact absurd h (by simp [dottedL])
    | cons t bs =>
      rw [dottedL_cons, dottedL_cons] at h
      by_cases has : as_ = [] <;> by_cases hbs : bs = []
      · subst has; subst hbs; rw [if_pos rfl, if_pos rfl] at h; rw [h]
      · rw [if_pos has, if_neg hbs] at h
        exact absurd (h ▸ (by simp : '.' ∈ t ++ '.' :: dottedL bs))
          (ha s (List.mem_cons_self _ _)).2
      · rw [if_neg has, if_pos hbs] at h
        exact absurd (h.symm ▸ (by simp : '.' ∈ s ++ '.' :: dottedL as_))
          (hb t (List.mem_cons_self _ _)).2
      · rw [if_neg has, if_neg hbs] at h
        obtain ⟨h1, h2⟩ := dot_split_eq (ha s (List.mem_cons_self _ _)).2
          (hb t (List.mem_cons_self _ _)).2 h
        rw [h1, ih bs (fun u hu => ha u (List.mem_cons_of_mem _ hu))
          (fun u hu => hb u (List.mem_cons_of_mem _ hu)) h2]

/-- `".".join` is injective on collision-free token lists. -/
lemma dotted_inj {a b : List String} (ha : TokensOk a) (hb : TokensOk b)
    (h : dotted a = dotted b) : a = b := by
  have hd : dottedL (a.map String.data) = dottedL (b.map String.data) :=
    congrArg String.data h
  have key := dottedL_inj (a.map String.data) (b.map String.data)
    (by
      intro t ht
      obtain ⟨u, hu, rfl⟩ := List.mem_map.mp ht
      refine ⟨fun hc => (ha u hu).1 ?_, (ha u hu).2⟩
      cases u; simpa using congrArg String.mk hc)
    (by
      intro t ht
      obtain ⟨u, hu, rfl⟩ := List.mem_map.mp ht
      refine ⟨fun hc => (hb u hu).1 ?_, (hb u hu).2⟩
      cases u; simpa using congrArg String.mk hc)
    hd
  have : Function.Injective String.data := by
    intro x y hxy; cases x; cases y; simpa using congrArg String.mk hxy
  exact List.map_injective_iff.mpr this key

/-! ## Discovered subcommand names are identifier-shaped -/

lemma dedupSeen_subset : ∀ (seen l : List (List Char)) (x : List Char),
    x ∈ dedupSeen seen l → x ∈ l := by
  intro seen l
  induction l generalizing seen with
  | nil => intro x h; simpa [dedupSeen] using h
  | cons s rest ih =>
    intro x h
    unfold dedupSeen at h
    by_cases hs : s ∈ seen
    · rw [if_pos hs] at h
      exact List.mem_cons_of_mem _ (ih seen x h)
    · rw [if_neg hs] at h
      rcases List.mem_cons.mp h with h1 | h1
      · exact h1 ▸ List.mem_cons_self _ _
      · exact List.mem_cons_of_mem _ (ih _ x h1)

lemma collectSubs_mem : ∀ (lines : List (List Char)) (b : Bool) (x : List Char),
    x ∈ collectSubs lines b → ∃ line, captureIdent line = some x := by
  intro lines
  induction lines with
  | nil => intro b x h; simp [collectSubs] at h
  | cons line rest ih =>
    intro b x h
    unfold collectSubs at h
    by_cases h1 : headerMatch line
    · rw [if_pos h1] at h; exact ih true x h
    · rw [if_neg h1] at h
      cases b with
      | false => exact ih false x (by simpa using h)
      | true =>
        simp only [if_true, if_pos rfl] at h
        by_cases h2 : isBlankLine line
        · rw [if_pos h2] at h; simp at h
        · rw [if_neg h2] at h
          rcases hcap : captureIdent line with _ | s
          · rw [hcap] at h; exact ih true x h
          · rw [hcap] at h
            rcases List.mem_cons.mp h with h3 | h3
            · exact ⟨line, h3 ▸ hcap⟩
            · exact ih true x h3

lemma captureIdent_props {l s : List Char} (h : captureIdent l = some s) :
    s ≠ [] ∧ ∀ c ∈ s, isClassCh c = true := by
  unfold captureIdent at h
  split_ifs at h
  rcases hrest : l.dropWhile pyIsSpace with _ | ⟨c, cs⟩ <;> rw [hrest] at h
  · cases h
  · dsimp only at h
    split_ifs at h with hc
    obtain rfl : dropTrailingHyphens ((c :: cs).takeWhile isClassCh) = s := Option.some.inj h
    have hcl : isClassCh c = true := by simp [isClassCh, hc]
    have htake : (c :: cs).takeWhile isClassCh = c :: cs.takeWhile isClassCh := by
      rw [List.takeWhile_cons, if_pos hcl]
    constructor
    · rw [htake]
      intro hnil
      unfold dropTrailingHyphens at hnil
      have hrev : (c :: cs.takeWhile isClassCh).reverse.dropWhile (fun x => x = '-') = [] :=
        List.reverse_eq_nil_iff.mp hnil
      have hall := List.dropWhile_eq_nil_iff.mp hrev
      have hcmem : c ∈ (c :: cs.takeWhile isClassCh).reverse := by simp
      have hcd : c = '-' := by simpa using hall c hcmem
      rw [hcd] at hc
      exact absurd hc (by decide)
    · intro d hd
      have hmem : d ∈ (c :: cs).takeWhile isClassCh := by
        have hsub : List.Sublist (dropTrailingHyphens ((c :: cs).takeWhile isClassCh))
            ((c :: cs).takeWhile isClassCh) := by
          unfold dropTrailingHyphens
          have h1 : List.Sublist
              (((c :: cs).takeWhile isClassCh).reverse.dropWhile (fun x => x = '-'))
              (((c :: cs).takeWhile isClassCh).reverse) := List.dropWhile_sublist _
          have h2 := h1.reverse
          rwa [List.reverse_reverse] at h2
        exact hsub.mem hd
      exact List.mem_takeWhile_imp hmem

/-- Every name returned by `parse_subcommands` is a nonempty string over the
identifier class `[A-Za-z0-9\-_]` — in particular it contains no `'.'`. -/
lemma parse_subcommands_mem {txt : String} {s : String} (h : s ∈ parse_subcommands txt) :
    s ≠ "" ∧ ∀ c ∈ s.data, isClassCh c = true := by
  unfold parse_subcommands at h
  obtain ⟨w, hw, rfl⟩ := List.mem_map.mp h
  obtain ⟨line, hline⟩ := collectSubs_mem _ _ _ (dedupSeen_subset _ _ _ hw)
  obtain ⟨h1, h2⟩ := captureIdent_props hline
  exact ⟨fun hc => h1 (congrArg String.data hc), h2⟩

/-! ## Keys and the literal-seed guarantee -/

lemma regWrite_preserves_domain {reg : Registry} {k k2 : String} {v w : List String}
    (h : (k, v) ∈ reg) : ∃ v', (k, v') ∈ regWrite reg k2 w := by
  unfold regWrite
  split_ifs with hany
  · by_cases hk : k = k2
    · subst hk
      exact ⟨w, List.mem_map.mpr ⟨(k, v), h, by rw [if_pos rfl]⟩⟩
    · exact ⟨v, List.mem_map.mpr ⟨(k, v), h, by rw [if_neg hk]⟩⟩
  · exact ⟨v, List.mem_append_left _ h⟩

lemma regWrite_key_mem (reg : Registry) (k : String) (w : List String) :
    ∃ v, (k, v) ∈ regWrite reg k w := by
  unfold regWrite
  split_ifs with hany
  · obtain ⟨x, hx, hxk⟩ := List.any_eq_true.mp hany
    have hxk' : x.1 = k := by simpa using hxk
    exact ⟨w, List.mem_map.mpr ⟨x, hx, by rw [if_pos hxk']⟩⟩
  · exact ⟨w, List.mem_append_right _ (List.mem_singleton.mpr rfl)⟩

/-- Keys present in the registry stay present for the rest of the crawl. -/
lemma crawlGo_domain_mono (f : List String → String) (maxD : Nat) :
    ∀ fuel q vis reg r, crawlGo f maxD fuel q vis reg = some r →
      ∀ k v, (k, v) ∈ reg → ∃ v', (k, v') ∈ r := by
  intro fuel
  induction fuel with
  | zero =>
    intro q vis reg r h k v hkv
    cases q with
    | nil => rw [crawlGo_nil] at h; exact ⟨v, (Option.some.inj h) ▸ hkv⟩
    | cons it rest =>
      obtain ⟨k', t⟩ := it
      rw [crawlGo_zero_cons] at h
      exact absurd h (by simp)
  | succ n ih =>
    intro q vis reg r h k v hkv
    cases q with
    | nil => rw [crawlGo_nil] at h; exact ⟨v, (Option.some.inj h) ▸ hkv⟩
    | cons it rest =>
      obtain ⟨k', t⟩ := it
      simp only [crawlGo] at h
      by_cases hk : k' = "helpflag"
      · rw [if_pos hk] at h
        by_cases hv : t ∈ vis
        · rw [if_pos hv] at h; exact ih _ _ _ _ h k v hkv
        · rw [if_neg hv] at h
          by_cases hd : maxD < t.length
          · rw [if_pos hd] at h; exact ih _ _ _ _ h k v hkv
          · rw [if_neg hd] at h
            by_cases ht : t = []
            · rw [if_pos ht] at h; exact ih _ _ _ _ h k v hkv
            · rw [if_neg ht] at h
              obtain ⟨v', hv'⟩ := @regWrite_preserves_domain reg k (dotted t) v t hkv
              exact ih _ _ _ _ h k v' hv'
      · rw [if_neg hk] at h
        by_cases hc : k' = "command"
        · rw [if_pos hc] at h
          obtain ⟨v', hv'⟩ := @regWrite_preserves_domain reg k (dotted t) v t hkv
          exact ih _ _ _ _ h k v' hv'
        · rw [if_neg hc] at h; exact ih _ _ _ _ h k v hkv

/-- A `command` item sitting in the queue of a completed crawl leaves its
dotted key in the final registry. -/
lemma crawlGo_command_key (f : List String → String) (maxD : Nat) :
    ∀ fuel q vis reg r, crawlGo f maxD fuel q vis reg = some r →
      ∀ T, ("command", T) ∈ q → ∃ v, (dotted T, v) ∈ r := by
  intro fuel
  induction fuel with
  | zero =>
    intro q vis reg r h T hT
    cases q with
    | nil => simp at hT
    | cons it rest =>
      obtain ⟨k', t⟩ := it
      rw [crawlGo_zero_cons] at h
      exact absurd h (by simp)
  | succ n ih =>
    intro q vis reg r h T hT
    cases q with
    | nil => simp at hT
    | cons it rest =>
      obtain ⟨k', t⟩ := it
      rcases List.mem_cons.mp hT with hhead | htail
      · obtain ⟨hk', ht⟩ := Prod.mk.injEq .. ▸ hhead.symm
        subst ht
        subst hk'
        simp only [crawlGo] at h
        split_ifs at h with h1 <;> first
          | exact absurd h1 (by decide)
          | (obtain ⟨v, hv⟩ := regWrite_key_mem reg (dotted t) t
             exact crawlGo_domain_mono f maxD _ _ _ _ _ h (dotted t) v hv)
      · simp only [crawlGo] at h
        by_cases hk : k' = "helpflag"
        · rw [if_pos hk] at h
          by_cases hv : t ∈ vis
          · rw [if_pos hv] at h; exact ih _ _ _ _ h T htail
          · rw [if_neg hv] at h
            by_cases hd : maxD < t.length
            · rw [if_pos hd] at h; exact ih _ _ _ _ h T htail
            · rw [if_neg hd] at h
              exact ih _ _ _ _ h T (List.mem_append_left _ htail)
        · rw [if_neg hk] at h
          by_cases hc : k' = "command"
          · rw [if_pos hc] at h; exact ih _ _ _ _ h T htail
          · rw [if_neg hc] at h; exact ih _ _ _ _ h T htail

/-- If the key is present and every entry with that key carries value `v`,
`reg.get` returns `v`. -/
lemma regLookup_eq_of_unique {reg : Registry} {k : String} {v : List String}
    (hdom : ∃ w, (k, w) ∈ reg) (huniq : ∀ kv ∈ reg, kv.1 = k → kv.2 = v) :
    regLookup reg k = some v := by
  obtain ⟨w, hw⟩ := hdom
  unfold regLookup
  rcases hfind : List.find? (fun kv => kv.1 = k) reg with _ | x
  · exfalso
    have := List.find?_eq_none.mp hfind (k, w) hw
    simp at this
  · have hx1 : x.1 = k := by simpa using List.find?_some hfind
    have hx2 := huniq x (List.mem_of_find?_eq_some hfind) hx1
    rw [hfind]
    simp [hx2]

/-- C6 counterexample: with literal seeds `a.b` and `a b`, both seeds share
the dotted key `"a.b"`; the later write wins, so the registry does NOT map
`"a.b"` to `["a.b"]` — the claim fails for the seed `T = ["a.b"]` even though
no depth cap or visited-set interference is involved. -/
theorem c6_counterexample_key_collision :
    crawl_from_seeds (fun _ => "") 10 "a.b\na b" 10 = some [("a.b", ["a", "b"])] ∧
    regLookup [("a.b", ["a", "b"])] (dotted ["a.b"]) ≠ some ["a.b"] := by
  constructor
  · decide
  · decide

/-- C6 (amended): a literal-command seed `T` always leaves its dotted key
`join(T, ".")` in the final registry, with no depth check and no visited-set
check; its argv equals `T` provided dotted keys cannot collide — i.e. when
no seed token contains a `'.'` (discovered subcommand names never do).  The
unamended claim fails only through such key collisions, where the last write
wins. -/
theorem c6_literal_seed_amended (f : List String → String) (maxD : Nat) (seedsRaw : String)
    (fuel : Nat) (r : Registry) (T : List String)
    (h : crawl_from_seeds f maxD seedsRaw fuel = some r)
    (hT : ("command", T) ∈ initQueue seedsRaw)
    (hseeds : ∀ it ∈ initQueue seedsRaw, TokensOk it.2) :
    regLookup r (dotted T) = some T := by
  have hTok : TokensOk T := hseeds ("command", T) hT
  have hinv : ∀ kv ∈ r, kv.1 = dotted kv.2 ∧ TokensOk kv.2 := by
    refine crawlGo_inv f maxD (fun kv => kv.1 = dotted kv.2 ∧ TokensOk kv.2)
      (fun it => TokensOk it.2) ?_ ?_ ?_ fuel _ _ _ _ h hseeds (by simp)
    · intro toks s hQ hs
      intro u hu
      rcases List.mem_append.mp hu with h1 | h1
      · exact hQ u h1
      · obtain rfl := List.mem_singleton.mp h1
        obtain ⟨h2, h3⟩ := parse_subcommands_mem hs
        refine ⟨h2, fun hdot => ?_⟩
        have := h3 '.' hdot
        exact absurd this (by decide)
    · intro toks hQ _ _; exact ⟨rfl, hQ⟩
    · intro toks hQ; exact ⟨rfl, hQ⟩
  have hdom : ∃ v, (dotted T, v) ∈ r := crawlGo_command_key f maxD fuel _ _ _ _ h T hT
  refine regLookup_eq_of_unique hdom ?_
  intro kv hkv hk
  obtain ⟨h1, h2⟩ := hinv kv hkv
  exact dotted_inj h2 hTok (h1 ▸ hk)

/-- Witness for `c6_literal_seed_amended`: the single dot-free seed `a b`. -/
theorem c6_literal_seed_amended_witness :
    regLookup [("a.b", ["a", "b"])] (dotted ["a", "b"]) = some ["a", "b"] :=
  c6_literal_seed_amended (fun _ => "") 0 "a b" 5 [("a.b", ["a", "b"])] ["a", "b"]
    (by decide) (by decide) (by decide)

/-! ## Termination of the crawl loop -/

lemma treeSize_unfold (f : List String → String) (maxD : Nat) (p : List String)
    (h : ¬ maxD < p.length) :
    treeSize f maxD p
      = 1 + ((parse_subcommands (f p)).map (fun s => 1 + treeSize f maxD (p ++ [s]))).sum := by
  rw [treeSize, if_neg h]
  congr 1
  simp

lemma treeSize_deep (f : List String → String) (maxD : Nat) (p : List String)
    (h : maxD < p.length) : treeSize f maxD p = 0 := by
  rw [treeSize, if_pos h]

lemma itemWeight_pos (f : List String → String) (maxD : Nat) (vis : List (List String))
    (it : String × List String) : 1 ≤ itemWeight f maxD vis it := by
  unfold itemWeight; split_ifs <;> omega

lemma itemWeight_mono_visited (f : List String → String) (maxD : Nat)
    {vis vis' : List (List String)} (hsub : ∀ x ∈ vis, x ∈ vis')
    (it : String × List String) :
    itemWeight f maxD vis' it ≤ itemWeight f maxD vis it := by
  unfold itemWeight
  split_ifs with h1 h2
  · exact le_rfl
  · exact absurd ⟨h1.1, fun hm => h1.2 (hsub _ hm)⟩ h2
  · omega
  · exact le_rfl

lemma queueWeight_cons (f : List String → String) (maxD : Nat) (vis : List (List String))
    (it : String × List String) (q : List (String × List String)) :
    queueWeight f maxD vis (it :: q) = itemWeight f maxD vis it + queueWeight f maxD vis q := by
  simp [queueWeight]

lemma queueWeight_append (f : List String → String) (maxD : Nat) (vis : List (List String))
    (q1 q2 : List (String × List String)) :
    queueWeight f maxD vis (q1 ++ q2) = queueWeight f maxD vis q1 + queueWeight f maxD vis q2 := by
  simp [queueWeight]

lemma queueWeight_mono_visited (f : List String → String) (maxD : Nat)
    {vis vis' : List (List String)} (hsub : ∀ x ∈ vis, x ∈ vis')
    (q : List (String × List String)) :
    queueWeight f maxD vis' q ≤ queueWeight f maxD vis q :=
  List.sum_le_sum (fun it _ => itemWeight_mono_visited f maxD hsub it)

/-- The queue weight bounds the fuel needed: every loop iteration strictly
decreases it, so the loop always reaches the empty queue. -/
lemma crawlGo_completes (f : List String → String) (maxD : Nat) :
    ∀ n q vis reg, queueWeight f maxD vis q ≤ n →
      ∃ r, crawlGo f maxD n q vis reg = some r := by
  intro n
  induction n with
  | zero =>
    intro q vis reg h
    cases q with
    | nil => exact ⟨reg, crawlGo_nil f maxD 0 vis reg⟩
    | cons it rest =>
      exfalso
      rw [queueWeight_cons] at h
      have := itemWeight_pos f maxD vis it
      omega
  | succ n ih =>
    intro q vis reg h
    cases q with
    | nil => exact ⟨reg, crawlGo_nil f maxD (n + 1) vis reg⟩
    | cons it rest =>
      obtain ⟨k, t⟩ := it
      rw [queueWeight_cons] at h
      by_cases hk : k = "helpflag"
      · by_cases hv : t ∈ vis
        · have h1 : itemWeight f maxD vis (k, t) = 1 := by
            unfold itemWeight
            rw [if_neg (fun hc => hc.2 hv)]
          obtain ⟨r, hr⟩ := ih rest vis reg (by omega)
          refine ⟨r, ?_⟩
          simp only [crawlGo]
          rw [if_pos hk, if_pos hv]
          exact hr
        · have h1 : itemWeight f maxD vis (k, t) = 1 + treeSize f maxD t := by
            unfold itemWeight
            rw [if_pos ⟨hk, hv⟩]
          have hsub : ∀ x ∈ vis, x ∈ t :: vis := fun x hx => List.mem_cons_of_mem _ hx
          by_cases hd : maxD < t.length
          · have hts : treeSize f maxD t = 0 := treeSize_deep f maxD t hd
            have hw : queueWeight f maxD (t :: vis) rest ≤ n := by
              have := queueWeight_mono_visited f maxD hsub rest
              omega
            obtain ⟨r, hr⟩ := ih rest (t :: vis) reg hw
            refine ⟨r, ?_⟩
            simp only [crawlGo]
            rw [if_pos hk, if_neg hv, if_pos hd]
            exact hr
          · have hts := treeSize_unfold f maxD t hd
            have hitem : ∀ s ∈ parse_subcommands (f t),
                itemWeight f maxD (t :: vis) ("helpflag", t ++ [s])
                  ≤ 1 + treeSize f maxD (t ++ [s]) := by
              intro s _
              unfold itemWeight
              dsimp only
              split_ifs <;> omega
            have hq2 : queueWeight f maxD (t :: vis)
                ((parse_subcommands (f t)).map (fun s => ("helpflag", t ++ [s])))
                  ≤ ((parse_subcommands (f t)).map (fun s => 1 + treeSize f maxD (t ++ [s]))).sum := by
              unfold queueWeight
              rw [List.map_map]
              exact List.sum_le_sum (fun s hs => hitem s hs)
            have hw : queueWeight f maxD (t :: vis)
                (rest ++ (parse_subcommands (f t)).map (fun s => ("helpflag", t ++ [s]))) ≤ n := by
              rw [queueWeight_append]
              have h2 := queueWeight_mono_visited f maxD hsub rest
              omega
            obtain ⟨r, hr⟩ := ih _ (t :: vis) _ hw
            refine ⟨r, ?_⟩
            simp only [crawlGo]
            rw [if_pos hk, if_neg hv, if_neg hd]
            exact hr
      · have h1 : itemWeight f maxD vis (k, t) = 1 := by
          unfold itemWeight
          rw [if_neg (fun hc => hk hc.1)]
        by_cases hc : k = "command"
        · obtain ⟨r, hr⟩ := ih rest vis (regWrite reg (dotted t) t) (by omega)
          refine ⟨r, ?_⟩
          simp only [crawlGo]
          rw [if_neg hk, if_pos hc]
          exact hr
        · obtain ⟨r, hr⟩ := ih rest vis reg (by omega)
          refine ⟨r, ?_⟩
          simp only [crawlGo]
          rw [if_neg hk, if_neg hc]
          exact hr

/-- C10: for every total run-help primitive and every seed list, the crawl
terminates — some finite fuel empties the FIFO work queue and
`crawl_from_seeds` returns a registry. -/
theorem c10_crawl_terminates (f : List String → String) (maxD : Nat) (seedsRaw : String) :
    ∃ fuel r, crawl_from_seeds f maxD seedsRaw fuel = some r := by
  obtain ⟨r, hr⟩ := crawlGo_completes f maxD
    (queueWeight f maxD [] (initQueue seedsRaw)) (initQueue seedsRaw) [] [] le_rfl
  exact ⟨queueWeight f maxD [] (initQueue seedsRaw), r, hr⟩

/-! ## Serializer stability and key order -/

lemma charListLe_total : ∀ a b : List Char, charListLe a b = true ∨ charListLe b a = true := by
  intro a
  induction a with
  | nil => intro b; left; rfl
  | cons c as_ ih =>
    intro b
    cases b with
    | nil => right; rfl
    | cons d bs =>
      unfold charListLe
      by_cases h1 : c < d
      · left; rw [if_pos h1]
      · by_cases h2 : d < c
        · right; rw [if_pos h2]
        · rcases ih bs with h | h
          · left; rw [if_neg h1, if_neg h2]; exact h
          · right; rw [if_neg h2, if_neg h1]; exact h

lemma strLeB_total (a b : String) : strLeB a b = true ∨ strLeB b a = true :=
  charListLe_total a.data b.data

lemma chain'_insortKey (kv : String × List String) (l : List (String × List String))
    (h : List.Chain' (fun a b => strLeB a.1 b.1 = true) l) :
    List.Chain' (fun a b => strLeB a.1 b.1 = true) (insortKey kv l) := by
  induction l with
  | nil => simp [insortKey]
  | cons x xs ih =>
    unfold insortKey
    by_cases hle : strLeB kv.1 x.1
    · rw [if_pos hle]
      exact List.chain'_cons.mpr ⟨hle, h⟩
    · rw [if_neg hle]
      have hxkv : strLeB x.1 kv.1 = true := by
        rcases strLeB_total kv.1 x.1 with h2 | h2
        · exact absurd h2 hle
        · exact h2
      have hind := ih (List.Chain'.tail h)
      refine List.chain'_cons'.mpr ⟨?_, hind⟩
      intro b hb
      cases xs with
      | nil =>
        injection hb with hb
        rw [← hb]
        exact hxkv
      | cons y ys =>
        unfold insortKey at hb
        by_cases h2 : strLeB kv.1 y.1
        · rw [if_pos h2] at hb
          injection hb with hb
          rw [← hb]
          exact hxkv
        · rw [if_neg h2] at hb
          injection hb with hb
          rw [← hb]
          exact (List.chain'_cons.mp h).1

/-- The serializer always emits entries in nondecreasing key order. -/
lemma chain'_sortEntries (reg : Registry) :
    List.Chain' (fun a b => strLeB a.1 b.1 = true) (sortEntries reg) := by
  unfold sortEntries
  induction reg with
  | nil => simp
  | cons kv rest ih => exact chain'_insortKey kv _ ih

/-- C7: two completed crawler runs against the same deterministic run-help
primitive, seed list and depth cap serialize to byte-identical registry
files (whatever fuel each run used), and the serialized document lists its
entries in sorted key order. -/
theorem c7_serialization_deterministic (f : List String → String) (maxD : Nat)
    (seedsRaw : String) (n1 n2 : Nat) (r1 r2 : Registry)
    (h1 : crawl_from_seeds f maxD seedsRaw n1 = some r1)
    (h2 : crawl_from_seeds f maxD seedsRaw n2 = some r2) :
    serialize_registry r1 = serialize_registry r2 ∧
    List.Chain' (fun a b => strLeB a.1 b.1 = true) (sortEntries r1) := by
  unfold crawl_from_seeds at h1 h2
  have heq : r1 = r2 := by
    rcases le_total n1 n2 with hle | hle
    · have hm := crawlGo_mono f maxD n1 n2 hle _ _ _ _ h1
      rw [hm] at h2
      exact Option.some.inj h2
    · have hm := crawlGo_mono f maxD n2 n1 hle _ _ _ _ h2
      rw [hm] at h1
      exact (Option.some.inj h1).symm
  exact ⟨by rw [heq], chain'_sortEntries r1⟩

/-- Witness for `c7_serialization_deterministic` at the end-to-end stub with
two different fuel amounts. -/
theorem c7_serialization_deterministic_witness :
    serialize_registry regC1 = serialize_registry regC1 ∧
    List.Chain' (fun a b => strLeB a.1 b.1 = true) (sortEntries regC1) :=
  c7_serialization_deterministic crawlStub 10 "" 10 11 regC1 regC1 (by decide) (by decide)

/-! ## Line-level helper lemmas for the parser -/

lemma splitNL_cons (c : Char) (rest : List Char) :
    splitNL (c :: rest) = if c = '\n' then [] :: splitNL rest
      else (c :: (splitNL rest).headD []) :: (splitNL rest).tail := rfl

lemma splitNL_no_nl {l : List Char} (h : '\n' ∉ l) : splitNL l = [l] := by
  induction l with
  | nil => rfl
  | cons c rest ih =>
    rw [splitNL_cons,
      if_neg (fun hc => h (by rw [hc]; exact List.mem_cons_self _ _)),
      ih (fun hm => h (List.mem_cons_of_mem _ hm))]
    rfl

lemma splitNL_append_nl {l rest : List Char} (h : '\n' ∉ l) :
    splitNL (l ++ '\n' :: rest) = l :: splitNL rest := by
  induction l with
  | nil =>
    simp only [List.nil_append]
    rw [splitNL_cons, if_pos rfl]
  | cons c cs ih =>
    simp only [List.cons_append]
    rw [splitNL_cons,
      if_neg (fun hc => h (by rw [hc]; exact List.mem_cons_self _ _)),
      ih (fun hm => h (List.mem_cons_of_mem _ hm))]
    rfl

lemma takeWhile_prefix_all {p : Char → Bool} {l1 l2 : List Char} {c : Char}
    (h1 : ∀ x ∈ l1, p x = true) (hc : p c = false) :
    (l1 ++ c :: l2).takeWhile p = l1 := by
  induction l1 with
  | nil => simp [List.takeWhile_cons, hc]
  | cons a as ih =>
    simp only [List.cons_append, List.takeWhile_cons, h1 a (List.mem_cons_self a as), if_true]
    rw [ih (fun x hx => h1 x (List.mem_cons_of_mem _ hx))]

lemma dropWhile_prefix_all {p : Char → Bool} {l1 l2 : List Char} {c : Char}
    (h1 : ∀ x ∈ l1, p x = true) (hc : p c = false) :
    (l1 ++ c :: l2).dropWhile p = c :: l2 := by
  induction l1 with
  | nil => simp [List.dropWhile_cons, hc]
  | cons a as ih =>
    simp only [List.cons_append, List.dropWhile_cons, h1 a (List.mem_cons_self a as), if_true]
    exact ih (fun x hx => h1 x (List.mem_cons_of_mem _ hx))

lemma takeWhile_all_true {p : Char → Bool} {l : List Char} (h : ∀ x ∈ l, p x = true) :
    l.takeWhile p = l := by
  induction l with
  | nil => rfl
  | cons a as ih =>
    simp only [List.takeWhile_cons, h a (List.mem_cons_self a as), if_true]
    rw [ih (fun x hx => h x (List.mem_cons_of_mem _ hx))]

lemma dropWhile_all_false {p : Char → Bool} {l : List Char} (h : ∀ x ∈ l, p x = false) :
    l.dropWhile p = l := by
  cases l with
  | nil => rfl
  | cons a as => simp [List.dropWhile_cons, h a (List.mem_cons_self a as)]

lemma pyStrip_no_space {l : List Char} (h : ∀ c ∈ l, pyIsSpace c = false) : pyStrip l = l := by
  unfold pyStrip
  rw [dropWhile_all_false h,
    dropWhile_all_false (fun c hc => h c (List.mem_reverse.mp hc)), List.reverse_reverse]

/-! ## Character-class facts -/

lemma isAlnumA_of_digit {c : Char} (h : isDigitA c = true) : isAlnumA c = true := by
  unfold isDigitA at h
  unfold isAlnumA
  rw [h]
  simp

lemma pyIsSpace_false_of_alnum {c : Char} (h : isAlnumA c = true) : pyIsSpace c = false := by
  cases hsp : pyIsSpace c
  · rfl
  · exfalso
    unfold pyIsSpace at hsp
    simp only [Bool.or_eq_true, decide_eq_true_eq] at hsp
    rcases hsp with ((((rfl | rfl) | rfl) | rfl) | rfl) | rfl <;> exact absurd h (by decide)

lemma isClassCh_of_alnum {c : Char} (h : isAlnumA c = true) : isClassCh c = true := by
  unfold isClassCh
  rw [h]
  rfl

lemma toLower_of_digit {c : Char} (h : isDigitA c = true) : c.toLower = c := by
  have hb : 48 ≤ c.toNat ∧ c.toNat ≤ 57 := by
    unfold isDigitA at h
    simp only [Bool.and_eq_true, decide_eq_true_eq] at h
    exact ⟨h.1, h.2⟩
  have hno : ¬(c.toNat ≥ 65 ∧ c.toNat ≤ 90) := by omega
  unfold Char.toLower
  show (if c.toNat ≥ 65 ∧ c.toNat ≤ 90 then Char.ofNat (c.toNat + 32) else c) = c
  rw [if_neg hno]

lemma digit_ne_hyphen {c : Char} (h : isDigitA c = true) : (c = '-') = False := by
  simp only [eq_iff_iff, iff_false]
  intro hc
  rw [hc] at h
  exact absurd h (by decide)

/-! ## The identifier-line characterization of `captureIdent` -/

lemma captureIdent_of_shape {ws ident rest : List Char}
    (hws : ∀ c ∈ ws, pyIsSpace c = true) (hlen : 2 ≤ ws.length)
    (hne : ident ≠ []) (hhead : ∀ c, ident.head? = some c → isAlnumA c = true)
    (hclass : ∀ c ∈ ident, isClassCh c = true)
    (hlast : ident.getLast? ≠ some '-')
    (hrest : ∀ c, rest.head? = some c → isClassCh c = false) :
    captureIdent (ws ++ ident ++ rest) = some ident := by
  obtain ⟨c, tl, rfl⟩ : ∃ c tl, ident = c :: tl := by
    cases ident with
    | nil => exact absurd rfl hne
    | cons c tl => exact ⟨c, tl, rfl⟩
  have hc_alnum : isAlnumA c = true := hhead c rfl
  have hc_space : pyIsSpace c = false := pyIsSpace_false_of_alnum hc_alnum
  have hshape : ws ++ (c :: tl) ++ rest = ws ++ c :: (tl ++ rest) := by simp
  have e1 : (ws ++ (c :: tl) ++ rest).takeWhile pyIsSpace = ws := by
    rw [hshape]
    exact takeWhile_prefix_all hws hc_space
  have e2 : (ws ++ (c :: tl) ++ rest).dropWhile pyIsSpace = c :: (tl ++ rest) := by
    rw [hshape]
    exact dropWhile_prefix_all hws hc_space
  have e3 : (c :: (tl ++ rest)).takeWhile isClassCh = c :: tl := by
    cases hr : rest with
    | nil =>
      simp only [List.append_nil]
      exact takeWhile_all_true hclass
    | cons r rs =>
      have hrc : isClassCh r = false := hrest r (by rw [hr]; rfl)
      exact takeWhile_prefix_all hclass hrc
  have e4 : dropTrailingHyphens (c :: tl) = c :: tl := by
    unfold dropTrailingHyphens
    obtain ⟨d, ds, hrev⟩ : ∃ d ds, (c :: tl).reverse = d :: ds := by
      rcases hx : (c :: tl).reverse with _ | ⟨d, ds⟩
      · exact absurd (List.reverse_eq_nil_iff.mp hx) (by simp)
      · exact ⟨d, ds, rfl⟩
    have hd : ¬ (d = '-') := by
      intro hdc
      apply hlast
      rw [← List.head?_reverse, hrev, hdc]
      rfl
    rw [hrev, List.dropWhile_cons, if_neg (by simpa using hd), ← hrev, List.reverse_reverse]
  unfold captureIdent
  rw [e1, if_pos hlen, e2]
  dsimp only
  rw [if_pos hc_alnum, e3, e4]

/-! ## Block-level behavior of the line scan -/

lemma intercalate_cons_cons (s x y : List Char) (t : List (List Char)) :
    List.intercalate s (x :: y :: t) = x ++ s ++ List.intercalate s (y :: t) := by
  simp [List.intercalate, List.intersperse]

lemma intercalate_singleton (s x : List Char) : List.intercalate s [x] = x := by
  simp [List.intercalate, List.intersperse]

/-- Joining `'\n'`-free lines with `'\n'` and splitting again is the identity. -/
lemma splitNL_intercalate : ∀ ls : List (List Char), ls ≠ [] →
    (∀ l ∈ ls, '\n' ∉ l) → splitNL (List.intercalate ['\n'] ls) = ls := by
  intro ls
  induction ls with
  | nil => intro h; exact absurd rfl h
  | cons x t ih =>
    intro _ hnl
    cases t with
    | nil =>
      rw [intercalate_singleton]
      exact splitNL_no_nl (hnl x (List.mem_cons_self _ _))
    | cons y t' =>
      rw [intercalate_cons_cons]
      rw [List.append_assoc]
      simp only [List.singleton_append]
      rw [splitNL_append_nl (hnl x (List.mem_cons_self _ _))]
      rw [ih (by simp) (fun l hl => hnl l (List.mem_cons_of_mem _ hl))]

/-- An identifier line is neither a header (hypothesis) nor blank, and its
capture is its identifier, so the scan collects exactly the identifiers of a
well-formed block and stops at the closing blank line. -/
lemma collectSubs_block : ∀ items : List (List Char × List Char × List Char),
    (∀ it ∈ items, GoodIdentLine it.1 it.2.1 it.2.2) →
    collectSubs ((items.map (fun it => it.1 ++ it.2.1 ++ it.2.2)) ++ [[]]) true
      = items.map (fun it => it.2.1) := by
  intro items
  induction items with
  | nil => intro _; decide
  | cons it its ih =>
    intro hgood
    obtain ⟨ws, ident, rest⟩ := it
    obtain ⟨hws, hlen, hne, hhead, hclass, hlast, hrest, hplain, hhm⟩ :=
      hgood _ (List.mem_cons_self _ _)
    have hcap : captureIdent (ws ++ ident ++ rest) = some ident :=
      captureIdent_of_shape
        (fun c hc => by rcases hws c hc with rfl | rfl <;> decide)
        hlen hne hhead hclass hlast hrest
    have hblank : isBlankLine (ws ++ ident ++ rest) = false := by
      obtain ⟨c, tl, rfl⟩ : ∃ c tl, ident = c :: tl := by
        cases ident with
        | nil => exact absurd rfl hne
        | cons c tl => exact ⟨c, tl, rfl⟩
      have hcs : pyIsSpace c = false := pyIsSpace_false_of_alnum (hhead c rfl)
      cases hb : isBlankLine (ws ++ (c :: tl) ++ rest)
      · rfl
      · exfalso
        unfold isBlankLine at hb
        have := List.all_eq_true.mp hb c (by simp)
        rw [hcs] at this
        cases this
    simp only [List.map_cons, List.cons_append]
    unfold collectSubs
    rw [if_neg (by simpa using hhm), if_pos rfl, if_neg (by simpa using hblank), hcap]
    rw [ih (fun x hx => hgood x (List.mem_cons_of_mem _ hx))]

/-- Without a header line the scan never enters collecting mode. -/
lemma collectSubs_no_header : ∀ lines : List (List Char),
    (∀ l ∈ lines, headerMatch l = false) → collectSubs lines false = [] := by
  intro lines
  induction lines with
  | nil => intro _; rfl
  | cons l rest ih =>
    intro h
    unfold collectSubs
    rw [if_neg (by simp [h l (List.mem_cons_self _ _)])]
    exact ih (fun x hx => h x (List.mem_cons_of_mem _ hx))

lemma collectSubs_cons (line : List Char) (rest : List (List Char)) (b : Bool) :
    collectSubs (line :: rest) b =
      if headerMatch line then collectSubs rest true
      else if b then
        if isBlankLine line then []
        else match captureIdent line with
          | some s => s :: collectSubs rest true
          | none => collectSubs rest true
      else collectSubs rest false := rfl

/-- C2 counterexample: the block
`"Subcommands:\n  Subcommands:\n\n"` consists of a header line, then one line
with two leading spaces and the identifier `Subcommands` (followed by the
description text `":"`), then a blank line — yet the parser returns `[]`, not
`["Subcommands"]`: the indented line itself matches the case-insensitive
header regex `^\s*Subcommands:\s*$`, which is tested first, so its identifier
is never captured. -/
theorem c2_counterexample_header_shadow :
    parse_subcommands "Subcommands:\n  Subcommands:\n\n" = [] ∧
    parse_subcommands "Subcommands:\n  Subcommands:\n\n" ≠ ["Subcommands"] := by
  constructor
  · decide
  · decide

/-- C2 (amended): for a help text of a header line followed by identifier
lines (two or more leading spaces/tabs, then the line's maximal
`[A-Za-z0-9\-_]` token, not ending in `-`, then printable-ASCII description
text) and a blank line, where — as the counterexample forces — no identifier
line itself re-matches the header regex, the parser returns exactly those
identifiers, first-seen order, duplicates kept once; and any text (over
`'\n'` plus printable-ASCII/tab characters) with no header line parses to
the empty sequence.  The printable-ASCII/tab restriction keeps the statement
on the fragment where this file's parser model coincides with CPython's
Unicode-aware `splitlines`/`\s`/`\b`. -/
theorem c2_parser_block_amended (header : List Char)
    (items : List (List Char × List Char × List Char))
    (hheader : headerMatch header = true) (hhplain : ∀ c ∈ header, plainChar c)
    (hitems : ∀ it ∈ items, GoodIdentLine it.1 it.2.1 it.2.2) :
    parse_subcommands (String.mk (List.intercalate ['\n']
        ((header :: items.map (fun it => it.1 ++ it.2.1 ++ it.2.2)) ++ [[]])))
      = (dedupSeen [] (items.map (fun it => it.2.1))).map String.mk
    ∧ ∀ text : String, (∀ c ∈ text.data, c = '\n' ∨ plainChar c) →
        (∀ l ∈ splitNL text.data, headerMatch l = false) →
        parse_subcommands text = [] := by
  constructor
  · have hnl_all : ∀ l ∈ (header :: items.map (fun it => it.1 ++ it.2.1 ++ it.2.2)) ++ [[]],
        '\n' ∉ l := by
      intro l hl
      rcases List.mem_append.mp hl with h1 | h1
      · rcases List.mem_cons.mp h1 with rfl | h2
        · intro hmem
          exact absurd (hhplain '\n' hmem) (by decide)
        · obtain ⟨it, hit, rfl⟩ := List.mem_map.mp h2
          obtain ⟨hws, _, _, _, hclass, _, _, hplain, _⟩ := hitems it hit
          intro hmem
          rcases List.mem_append.mp hmem with h3 | h3
          · rcases List.mem_append.mp h3 with h4 | h4
            · rcases hws '\n' h4 with h5 | h5 <;> exact absurd h5 (by decide)
            · exact absurd (hclass '\n' h4) (by decide)
          · exact absurd (hplain '\n' h3) (by decide)
      · rw [List.mem_singleton.mp h1]
        simp
    unfold parse_subcommands
    have hdata : (String.mk (List.intercalate ['\n']
        ((header :: items.map (fun it => it.1 ++ it.2.1 ++ it.2.2)) ++ [[]]))).data
        = List.intercalate ['\n']
            ((header :: items.map (fun it => it.1 ++ it.2.1 ++ it.2.2)) ++ [[]]) := rfl
    rw [hdata, splitNL_intercalate _ (by simp) hnl_all]
    simp only [List.cons_append]
    rw [collectSubs_cons, if_pos hheader, collectSubs_block items hitems]
  · intro text _ hnohd
    unfold parse_subcommands
    rw [collectSubs_no_header _ hnohd]
    rfl

/-- Witness for `c2_parser_block_amended`: one block line `  alpha  does a
thing` under a `Subcommands:` header. -/
theorem c2_parser_block_amended_witness :
    parse_subcommands (String.mk (List.intercalate ['\n']
        (("Subcommands:".toList ::
          [([' ', ' '], "alpha".toList, "  does a thing".toList)].map
            (fun it => it.1 ++ it.2.1 ++ it.2.2)) ++ [[]])))
      = ["alpha"] := by
  have h := c2_parser_block_amended "Subcommands:".toList
    [([' ', ' '], "alpha".toList, "  does a thing".toList)] (by decide) (by decide)
    (by
      intro it hit
      obtain rfl := List.mem_singleton.mp hit
      decide)
  exact h.1.trans (by decide)

/-- C9 counterexample: inside a `Subcommands:` block, the line `  123` — a
digit-only leading token — DOES yield a child name: the identifier regex
`[A-Za-z0-9][A-Za-z0-9\-_]*` accepts a leading digit, so the parser returns
`["123"]` where the claim demands no capture. -/
theorem c9_counterexample_digit_token :
    parse_subcommands "Subcommands:\n  123\n" = ["123"] ∧ (["123"] : List String) ≠ [] := by
  constructor
  · decide
  · decide

/-- C9 (amended): while collecting inside a `Subcommands:` block, a line of
two spaces followed by any nonempty digit-only token yields exactly that
token as a child name — captured identifiers may be digit-only, since the
regex's first character class `[A-Za-z0-9]` includes digits. -/
theorem c9_digit_token_amended (d : List Char) (hne : d ≠ [])
    (hdig : ∀ c ∈ d, isDigitA c = true) :
    parse_subcommands (String.mk ("Subcommands:".data ++ '\n' :: ' ' :: ' ' :: d))
      = [String.mk d] := by
  obtain ⟨c, tl, rfl⟩ : ∃ c tl, d = c :: tl := by
    cases d with
    | nil => exact absurd rfl hne
    | cons c tl => exact ⟨c, tl, rfl⟩
  have hcd : isDigitA c = true := hdig c (List.mem_cons_self _ _)
  have hca : isAlnumA c = true := isAlnumA_of_digit hcd
  have hnl2 : '\n' ∉ ' ' :: ' ' :: c :: tl := by
    intro hm
    simp only [List.mem_cons] at hm
    rcases hm with h | h | h | h
    · exact absurd h (by decide)
    · exact absurd h (by decide)
    · exact absurd (h ▸ hcd) (by decide)
    · exact absurd (hdig '\n' (List.mem_cons_of_mem _ h)) (by decide)
  have hsplit : splitNL ("Subcommands:".data ++ '\n' :: ' ' :: ' ' :: c :: tl)
      = ["Subcommands:".data, ' ' :: ' ' :: c :: tl] := by
    rw [splitNL_append_nl (by decide), splitNL_no_nl hnl2]
  have hhm2 : headerMatch (' ' :: ' ' :: c :: tl) = false := by
    unfold headerMatch
    have hstrip : pyStrip (' ' :: ' ' :: c :: tl) = c :: tl := by
      have : pyStrip (' ' :: ' ' :: c :: tl) = pyStrip (c :: tl) := by
        unfold pyStrip
        rw [List.dropWhile_cons, if_pos (by decide), List.dropWhile_cons, if_pos (by decide)]
      rw [this]
      exact pyStrip_no_space (fun x hx =>
        pyIsSpace_false_of_alnum (isAlnumA_of_digit (hdig x hx)))
    rw [hstrip]
    cases hb : ((c :: tl).map Char.toLower = "subcommands:".toList : Bool)
    · simp only [decide_eq_false_iff_not] at hb
      simpa using hb
    · exfalso
      simp only [decide_eq_true_eq] at hb
      have hc' : Char.toLower c = 's' := by
        have := congrArg List.head? hb
        simpa using this
      rw [toLower_of_digit hcd] at hc'
      exact absurd (hc' ▸ hcd) (by decide)
  have hbl : isBlankLine (' ' :: ' ' :: c :: tl) = false := by
    cases hb : isBlankLine (' ' :: ' ' :: c :: tl)
    · rfl
    · exfalso
      unfold isBlankLine at hb
      have := List.all_eq_true.mp hb c (by simp)
      rw [pyIsSpace_false_of_alnum hca] at this
      cases this
  have hcap : captureIdent (' ' :: ' ' :: c :: tl) = some (c :: tl) := by
    have h := @captureIdent_of_shape [' ', ' '] (c :: tl) []
      (by intro x hx; simp only [List.mem_cons] at hx
          rcases hx with rfl | rfl | h
          · rfl
          · rfl
          · cases h)
      (by decide) (by simp)
      (by intro x hx; injection hx with hx; exact hx ▸ hca)
      (fun x hx => isClassCh_of_alnum (isAlnumA_of_digit (hdig x hx)))
      (by
        intro heq
        have hmem := List.mem_of_getLast?_eq_some heq
        exact absurd (hdig '-' hmem) (by decide))
      (by intro x hx; cases hx)
    simpa using h
  unfold parse_subcommands
  have hdata : (String.mk ("Subcommands:".data ++ '\n' :: ' ' :: ' ' :: c :: tl)).data
      = "Subcommands:".data ++ '\n' :: ' ' :: ' ' :: c :: tl := rfl
  rw [hdata, hsplit, collectSubs_cons, if_pos (by decide), collectSubs_cons,
    if_neg (by simp [hhm2]), if_pos rfl, if_neg (by simp [hbl]), hcap]
  rfl

/-- Witness for `c9_digit_token_amended` at the token `123`. -/
theorem c9_digit_token_amended_witness :
    parse_subcommands (String.mk ("Subcommands:".data ++ '\n' :: ' ' :: ' ' :: "123".toList))
      = [String.mk "123".toList] :=
  c9_digit_token_amended "123".toList (by decide) (by decide)

/-! ## Dispatcher theorems -/

/-- C3: a POST /run request with a known, well-formed command and a nonempty
`file` whose lexical resolution against `SAVE_DIR` escapes it (candidate
neither equal to the base nor extending `base + "/"`) fails with the
invalid-path 400 — for EVERY file-existence oracle and every process oracle,
i.e. before any existence check and before any execution. -/
theorem c3_sandbox_reject (commands : List (String × Json)) (binName save_dir : String)
    (maxOut : Nat) (command_path : String) (fstr : String) (extra : List String)
    (entries : List (String × Json)) (argvJ : List Json)
    (hcmd : jsonGet commands command_path = some (Json.obj entries))
    (hargv : jsonGet entries "argv" = some (Json.arr argvJ))
    (hfile : fstr ≠ "")
    (hout : pyNormAbs (pyJoin (pyNormAbs save_dir) fstr) ≠ pyNormAbs save_dir)
    (hpre : isPrefixL ((pyNormAbs save_dir).data ++ ['/'])
        (pyNormAbs (pyJoin (pyNormAbs save_dir) fstr)).data = false) :
    ∀ (fileExists : String → Bool) (runProc : List String → Option (Int × String × String)),
      run_command commands binName save_dir maxOut fileExists runProc
          command_path (some fstr) extra
        = .error (400, "Invalid file path (must be under SAVE_DIR)") := by
  intro fileExists runProc
  have hne : entries ≠ [] := by
    intro h
    rw [h] at hargv
    simp [jsonGet] at hargv
  have htr : jsonTruthy (Json.obj entries) = true := by
    simp [jsonTruthy, hne]
  have hsafe : safe_join_under save_dir fstr
      = .error (400, "Invalid file path (must be under SAVE_DIR)") := by
    unfold safe_join_under
    rw [if_neg hout, if_pos (by simp [hpre])]
  unfold run_command
  rw [hcmd]
  dsimp only
  rw [if_neg (by simp [htr]), hargv]
  dsimp only
  rw [if_pos hfile, hsafe]

/-- Witness for `c3_sandbox_reject`: the registry entry `alpha`, base
directory `/data` and file `../secrets`. -/
theorem c3_sandbox_reject_witness :
    run_command [("alpha", Json.obj [("argv", Json.arr [Json.str "alpha"])])]
        "./di2save" "/data" 400000 (fun _ => true) (fun _ => some (0, "", ""))
        "alpha" (some "../secrets") []
      = .error (400, "Invalid file path (must be under SAVE_DIR)") :=
  c3_sandbox_reject [("alpha", Json.obj [("argv", Json.arr [Json.str "alpha"])])]
    "./di2save" "/data" 400000 "alpha" "../secrets" []
    [("argv", Json.arr [Json.str "alpha"])] [Json.str "alpha"]
    (by rfl) (by rfl) (by decide) (by decide) (by decide)
    (fun _ => true) (fun _ => some (0, "", ""))

/-- C8 counterexample: `load_commands` accepts `{"a": 5}` — a JSON object
whose value is not an object — so loading does NOT fail for every input that
is "not a well-formed mapping from keys to objects"; only the top level is
checked. -/
theorem c8_counterexample_value_not_object :
    load_commands (LoadInput.value (Json.obj [("a", Json.num 5)]))
      = Except.ok (Json.obj [("a", Json.num 5)]) ∧
    ∀ entries : List (String × Json), Json.num 5 ≠ Json.obj entries := by
  constructor
  · rfl
  · intro entries h
    exact Json.noConfusion h

/-- C8 (amended): startup registry loading succeeds exactly when the file is
present, decodes, and its top-level value is a JSON object; a missing file,
undecodable contents, or a non-object top level abort startup.  Per-entry
shape (values being objects with an argv list) is NOT validated at load: the
dispatcher starts serving with such a registry, and a request naming a
malformed entry fails only at dispatch time — for the counterexample entry
`{"a": 5}` the guard's `"argv" not in spec` raises `TypeError` on the number,
surfacing as a 500, whatever the file-system and process oracles do. -/
theorem c8_load_amended :
    (∀ inp : LoadInput, (∃ j, load_commands inp = Except.ok j)
      ↔ ∃ entries, inp = LoadInput.value (Json.obj entries)) ∧
    ∀ (binName save_dir : String) (maxOut : Nat) (fileExists : String → Bool)
      (runProc : List String → Option (Int × String × String)),
      run_command [("a", Json.num 5)] binName save_dir maxOut fileExists runProc "a" none []
        = .error (500, "TypeError") := by
  constructor
  · intro inp
    constructor
    · rintro ⟨j, hj⟩
      cases inp with
      | missing => cases hj
      | invalid => cases hj
      | value v =>
        cases v with
        | obj entries => exact ⟨entries, rfl⟩
        | null => cases hj
        | bool b => cases hj
        | num n => cases hj
        | str s => cases hj
        | arr l => cases hj
    · rintro ⟨entries, rfl⟩
      exact ⟨Json.obj entries, rfl⟩
  · intro binName save_dir maxOut fileExists runProc
    rfl
